import Mathlib

/-!
Verification of the detector / transmission core of `tados.illumination.transmission`.

The mesh collaborator (`tados.illumination.adaptive_mesh`), the containment primitive
(`point_in_triangle`) and the hexapolar sampling primitive are external to the verified
sources; following the specification they are modelled as interface data: per-triangle
area queries, the current image coordinates, and the broken-triangle classifier are
fields of the mesh model, and the containment test is an opaque boolean function.

Scalars are modelled by `ℚ`.  Division by zero yields `0` in `ℚ`; this matches the
"NaN-safe, treated as zero" reading of the specification.  Where the floating-point
behaviour of the source genuinely differs (a `0 * (c / 0)` producing NaN), a small
IEEE-style value type `FP` is used to model that computation faithfully.

Failures (Python `assert` / `IndexError`) are modelled by `Option`: `none` means the
call raises instead of returning.
-/

namespace Tados

/-- A point of the plane with rational coordinates. -/
abbrev Pt : Type := ℚ × ℚ

/-- A triangle, given by its three vertices. -/
abbrev Tri : Type := Pt × Pt × Pt

/-- Model of the external `AdaptiveMesh` collaborator, reduced to the interface used by
`transmission.py`: `simplices` are vertex-index triples, `image` the mapped vertex
coordinates, `domainAreas` / `imageAreas` the per-triangle results of
`get_area_in_domain()` / `get_area_in_image()` (aligned with `simplices`),
`initialDomainArea` the fixed scalar, and `findBroken` the result of
`find_broken_triangles(lthresh=·)` on the current triangulation. -/
structure AdaptiveMesh where
  simplices : List (ℕ × ℕ × ℕ)
  image : List Pt
  domainAreas : List ℚ
  imageAreas : List ℚ
  initialDomainArea : ℚ
  findBroken : ℚ → List Bool

/-- `CheckTriangulationDetector.add` (transmission.py lines 43–65).  Line 51 asserts that
every signed domain area is strictly positive (`assert(all(triangle_area>0))`); with a
skip mask containing a `True` entry, line 63 indexes `triangle_area[bSkip]`, which in
numpy raises unless the boolean mask length matches the array length.  The logging
output is pure diagnostics and is dropped; the call returns no value (`Unit`). -/
def CheckTriangulationDetector.add (mesh : AdaptiveMesh) (bSkip : List Bool) :
    Option Unit :=
  if mesh.domainAreas.all (fun a => decide (0 < a)) then
    if bSkip.any id then
      if bSkip.length = mesh.domainAreas.length then some () else none
    else some ()
  else none

/-- A mesh holding one degenerate triangle of zero signed domain area. -/
def meshZeroArea : AdaptiveMesh :=
  { simplices := [(0, 1, 2)], image := [(0, 0), (1, 0), (1, 0)], domainAreas := [0],
    imageAreas := [0], initialDomainArea := 1, findBroken := fun _ => [false] }

/-- C6 counterexample: a mesh all of whose signed domain areas are non-negative (one
triangle of area `0`) is nevertheless rejected by `CheckTriangulationDetector.add`,
refuting "every mesh whose triangles all have non-negative signed domain area is
accepted". -/
theorem checkAdd_rejects_zero_area :
    (∀ a ∈ meshZeroArea.domainAreas, 0 ≤ a) ∧
      CheckTriangulationDetector.add meshZeroArea [] = none := by
  decide

/-- C6 (amended): with the default empty skip mask, `CheckTriangulationDetector.add`
completes without error iff every signed domain area is strictly positive; any
non-positive area (negative or zero) makes it raise without returning a value. -/
theorem checkAdd_accepts_iff_all_pos (mesh : AdaptiveMesh) :
    CheckTriangulationDetector.add mesh [] = some () ↔
      ∀ a ∈ mesh.domainAreas, 0 < a := by
  unfold CheckTriangulationDetector.add
  by_cases h : mesh.domainAreas.all (fun a => decide (0 < a))
  · rw [List.all_eq_true] at h
    simp only [List.all_eq_true, decide_eq_true_eq] at h ⊢
    simp [h]
  · rw [if_neg h]
    simp only [List.all_eq_true, decide_eq_true_eq] at h
    simp [h]

/-- `np.abs` on rationals, written with an `if` so that it is kernel-computable;
`qabs_eq_abs` identifies it with the mathematical absolute value. -/
def qabs (q : ℚ) : ℚ := if q < 0 then -q else q

theorem qabs_eq_abs (q : ℚ) : qabs q = |q| := by
  unfold qabs
  rcases lt_or_ge q 0 with h | h
  · rw [if_pos h, abs_of_neg h]
  · rw [if_neg (not_lt.mpr h), abs_of_nonneg h]

theorem qabs_nonneg (q : ℚ) : 0 ≤ qabs q := by
  rw [qabs_eq_abs]
  exact abs_nonneg q

/-- Density computed in `RectImageDetector.add` (lines 105–108): the domain areas are
first divided by the initial domain area, then
`density = weight * abs(domain_area / image_area)`. -/
def rectAddDensity (mesh : AdaptiveMesh) (weight : ℚ) : List ℚ :=
  List.zipWith (fun da ia => weight * qabs (da / mesh.initialDomainArea / ia))
    mesh.domainAreas mesh.imageAreas

/-- Density computed in `PolarImageDetector.add` (lines 210–213); the source repeats the
same four lines as the rectangular detector. -/
def polarAddDensity (mesh : AdaptiveMesh) (weight : ℚ) : List ℚ :=
  List.zipWith (fun da ia => weight * qabs (da / mesh.initialDomainArea / ia))
    mesh.domainAreas mesh.imageAreas

/-- Density computed in `LineImageDetector.add` (lines 302–305); again the same four
lines as in the rectangular detector. -/
def lineAddDensity (mesh : AdaptiveMesh) (weight : ℚ) : List ℚ :=
  List.zipWith (fun da ia => weight * qabs (da / mesh.initialDomainArea / ia))
    mesh.domainAreas mesh.imageAreas

/-- The density field exactly as worded by the specification:
`density = weight * |domain_area / image_area|` with the areas "as returned by the
mesh".  Declared only to compare the spec wording with the implementation. -/
def specWordedDensity (mesh : AdaptiveMesh) (weight : ℚ) : List ℚ :=
  List.zipWith (fun da ia => weight * qabs (da / ia)) mesh.domainAreas
    mesh.imageAreas

/-- A mesh whose initial domain area is `2`, holding one triangle of domain area `2`
and image area `1`. -/
def meshHalfDomain : AdaptiveMesh :=
  { simplices := [(0, 1, 2)], image := [(0, 0), (1, 0), (0, 1)], domainAreas := [2],
    imageAreas := [1], initialDomainArea := 2, findBroken := fun _ => [false] }

/-- C1 counterexample: the density used by the detector adds differs from
`weight * |domain_area / image_area|` with the raw areas returned by the mesh — here
the code yields `1` while the claimed formula yields `2`. -/
theorem addDensity_ne_specWorded :
    rectAddDensity meshHalfDomain 1 ≠ specWordedDensity meshHalfDomain 1 := by
  norm_num [rectAddDensity, specWordedDensity, meshHalfDomain, qabs]

/-- C1 (amended): in all detector adds (rectangular, polar and line) the per-triangle
density equals `weight * |domain_area / (initial_domain_area * image_area)|` — the
domain area is normalized by the mesh's initial domain area before dividing by the
image area. -/
theorem addDensity_normalized (mesh : AdaptiveMesh) (weight : ℚ) :
    rectAddDensity mesh weight =
        List.zipWith (fun da ia => weight * |da / (mesh.initialDomainArea * ia)|)
          mesh.domainAreas mesh.imageAreas ∧
      polarAddDensity mesh weight = rectAddDensity mesh weight ∧
      lineAddDensity mesh weight = rectAddDensity mesh weight := by
  refine ⟨?_, rfl, rfl⟩
  unfold rectAddDensity
  congr 1
  funext da ia
  rw [qabs_eq_abs, div_div]

/-- The `is_broken` predicate defined inside `Transmission.total_transmission`
(lines 406–411): a triangle is considered broken for refinement iff
`find_broken_triangles(lthresh)` flags it *and* its domain area exceeds `Athresh`
(`broken[broken] = area_broken > Athresh`). -/
def is_broken (M : AdaptiveMesh) (lthresh Athresh : ℚ) : List Bool :=
  List.zipWith (fun b a => b && decide (Athresh < a)) (M.findBroken lthresh)
    M.domainAreas

/-- The refinement convergence loop of `total_transmission` (lines 425–431): repeatedly
call `refine_broken_triangles` (modelled by `step`, which returns the refined mesh and
the number of newly created triangles) until a round creates no new triangle.  The
source loop is unbounded; `fuel` bounds the model, `none` meaning the loop did not
converge within `fuel` rounds. -/
def refineLoop (step : AdaptiveMesh → AdaptiveMesh × ℕ) :
    ℕ → AdaptiveMesh → Option AdaptiveMesh
  | 0, _ => none
  | fuel + 1, M =>
    let r := step M
    if r.2 = 0 then some r.1 else refineLoop step fuel r.1

/-- Converged-mesh detector update of `total_transmission` (lines 425–436) for one
parameter: run the refinement loop (the external `refine_broken_triangles` is the
opaque `refine`, called with the `is_broken` predicate), then recompute
`broken = Mesh.find_broken_triangles(lthresh=lthresh)` on the converged mesh and pass
it as `bSkip` to every detector's `add`.  Returns the converged mesh together with the
mask handed to the detectors. -/
def totalTransmissionMask
    (refine : (AdaptiveMesh → List Bool) → AdaptiveMesh → AdaptiveMesh × ℕ)
    (fuel : ℕ) (M0 : AdaptiveMesh) (lthresh Athresh : ℚ) :
    Option (AdaptiveMesh × List Bool) :=
  (refineLoop (refine (fun M => is_broken M lthresh Athresh)) fuel M0).map
    (fun M => (M, M.findBroken lthresh))

/-- A refinement oracle that refines nothing: every round reports zero new triangles. -/
def refineNoop : (AdaptiveMesh → List Bool) → AdaptiveMesh → AdaptiveMesh × ℕ :=
  fun _ M => (M, 0)

/-- A converged mesh with one triangle flagged by the edge-length test but of domain
area `0`, i.e. below any positive `Athresh`. -/
def meshBrokenTiny : AdaptiveMesh :=
  { simplices := [(0, 1, 2)], image := [(0, 0), (1, 0), (0, 1)], domainAreas := [0],
    imageAreas := [1], initialDomainArea := 1, findBroken := fun _ => [true] }

/-- C2 counterexample: on a converged mesh whose single triangle is flagged by the
edge-length test but has domain area below `Athresh`, the skip mask passed to the
detectors is `[true]` while the refinement predicate `is_broken` classifies it
`[false]` — the mask is not the combined predicate. -/
theorem totalTransmissionMask_ne_isBroken :
    (totalTransmissionMask refineNoop 1 meshBrokenTiny 0 1).map
        (fun r => (r.2, is_broken r.1 0 1)) =
      some ([true], [false]) := by
  rfl

/-- C2 (amended): whenever `total_transmission`'s refinement loop converges, the skip
mask passed to every detector's `add` is exactly `find_broken_triangles(lthresh)` on
the converged mesh — the bare edge-length discontinuity test; the minimum-area
(`Athresh`) filter enters only the `is_broken` predicate used for subdivision, not the
final mask. -/
theorem totalTransmissionMask_eq_findBroken
    (refine : (AdaptiveMesh → List Bool) → AdaptiveMesh → AdaptiveMesh × ℕ)
    (fuel : ℕ) (M0 : AdaptiveMesh) (lthresh Athresh : ℚ) (M : AdaptiveMesh)
    (mask : List Bool)
    (h : totalTransmissionMask refine fuel M0 lthresh Athresh = some (M, mask)) :
    mask = M.findBroken lthresh := by
  unfold totalTransmissionMask at h
  cases hM : refineLoop (refine (fun M => is_broken M lthresh Athresh)) fuel M0 with
  | none =>
    rw [hM] at h
    exact Option.noConfusion h
  | some Mc =>
    rw [hM] at h
    injection h with h2
    cases h2
    rfl

/-- C2 witness: the amended theorem applied to the concrete converged run of
`totalTransmissionMask_ne_isBroken`. -/
theorem totalTransmissionMask_eq_findBroken_witness :
    [true] = meshBrokenTiny.findBroken 0 :=
  totalTransmissionMask_eq_findBroken refineNoop 1 meshBrokenTiny 0 1 meshBrokenTiny
    [true] rfl

/-- Look up the image coordinates of the three vertices of a simplex,
`mesh.image[simplex]`; a vertex index outside the image array raises. -/
def getTri (image : List Pt) (s : ℕ × ℕ × ℕ) : Option Tri := do
  let a ← image.get? s.1
  let b ← image.get? s.2.1
  let c ← image.get? s.2.2
  return (a, b, c)

/-- `RectImageDetector` (lines 75–182): cartesian grid detector.  `points` is the
`'ij'`-indexed grid of pixel centers (row `ix` holds `(x_ix, y_iy)` for each `iy`),
`intensity` the accumulator of the same shape. -/
structure RectImageDetector where
  extent : ℚ × ℚ
  pixels : ℕ × ℕ
  origin : ℚ × ℚ
  points : List (List Pt)
  intensity : List (List ℚ)
deriving DecidableEq

/-- Pixel centers along one axis: the midpoints of
`linspace(center-halfwidth, center+halfwidth, n+1)`, i.e.
`center - halfwidth + (2*i+1)*halfwidth/n` for `i = 0 .. n-1`. -/
def axisCenters (center halfwidth : ℚ) (n : ℕ) : List ℚ :=
  (List.range n).map fun i : ℕ =>
    center - halfwidth + (2 * (i : ℚ) + 1) * halfwidth / n

/-- `RectImageDetector.__init__` (lines 78–96): build the sampling grid from extent,
pixel counts and origin, and zero the intensity accumulator. -/
def mkRect (extent : ℚ × ℚ) (pixels : ℕ × ℕ) (origin : ℚ × ℚ) : RectImageDetector :=
  let xs := axisCenters origin.1 (extent.1 / 2) pixels.1
  let ys := axisCenters origin.2 (extent.2 / 2) pixels.2
  { extent := extent, pixels := pixels, origin := origin,
    points := xs.map (fun x => ys.map (fun y => (x, y))),
    intensity := xs.map (fun _ => ys.map (fun _ => 0)) }

/-- One triangle's contribution in `RectImageDetector.add` (lines 111–113): test every
pixel center for containment (`pit` models the external `point_in_triangle`) and add
the triangle's density wherever the test succeeds. -/
def accumTriangle (pit : Pt → Tri → Bool) (points : List (List Pt)) (dens : ℚ)
    (tri : Tri) (intensity : List (List ℚ)) : List (List ℚ) :=
  List.zipWith
    (fun prow irow =>
      List.zipWith (fun p v => v + dens * (if pit p tri then 1 else 0)) prow irow)
    points intensity

/-- Body of one iteration of the simplex loop in `RectImageDetector.add`
(lines 109–113) for a non-skipped simplex `sidx`. -/
def rectAddStep (pit : Pt → Tri → Bool) (points : List (List Pt)) (image : List Pt)
    (density : List ℚ) (sidx : ℕ) (simplex : ℕ × ℕ × ℕ)
    (intensity : List (List ℚ)) : Option (List (List ℚ)) :=
  match getTri image simplex, density.get? sidx with
  | some tri, some ds => some (accumTriangle pit points ds tri intensity)
  | _, _ => none

/-- The simplex loop of `RectImageDetector.add` (lines 109–113), `s` being the
`enumerate` counter: `if len(bSkip)>0 and bSkip[s]: continue` — with a non-empty skip
mask, `bSkip[s]` raises when `s` is past the end of the mask. -/
def rectAddLoop (pit : Pt → Tri → Bool) (points : List (List Pt)) (image : List Pt)
    (density : List ℚ) (bSkip : List Bool) :
    ℕ → List (ℕ × ℕ × ℕ) → List (List ℚ) → Option (List (List ℚ))
  | _, [], intensity => some intensity
  | s, simplex :: rest, intensity =>
    if 0 < bSkip.length then
      match bSkip.get? s with
      | none => none
      | some true => rectAddLoop pit points image density bSkip (s + 1) rest intensity
      | some false =>
        (rectAddStep pit points image density s simplex intensity).bind
          (rectAddLoop pit points image density bSkip (s + 1) rest)
    else
      (rectAddStep pit points image density s simplex intensity).bind
        (rectAddLoop pit points image density bSkip (s + 1) rest)

/-- `RectImageDetector.add` (lines 98–113). -/
def RectImageDetector.add (pit : Pt → Tri → Bool) (d : RectImageDetector)
    (mesh : AdaptiveMesh) (bSkip : List Bool) (weight : ℚ) :
    Option RectImageDetector :=
  (rectAddLoop pit d.points mesh.image (rectAddDensity mesh weight) bSkip 0
      mesh.simplices d.intensity).map
    (fun intensity => { d with intensity := intensity })

/-- `RectImageDetector.get_footprint` (lines 144–158): the accumulated intensity, with
pixels for which the optional mask function returns true zeroed out. -/
def RectImageDetector.get_footprint (d : RectImageDetector)
    (fMask : Option (ℚ → ℚ → Bool)) : List (List ℚ) :=
  match fMask with
  | none => d.intensity
  | some f =>
    List.zipWith
      (fun prow irow =>
        List.zipWith (fun p v => if f p.1 p.2 then 0 else v) prow irow)
      d.points d.intensity

/-- `X[:,0]`: the x coordinates of the first column of the point grid. -/
def RectImageDetector.xaxis (d : RectImageDetector) : List ℚ :=
  d.points.map (fun row => (row.headD (0, 0)).1)

/-- `Y[0,:]`: the y coordinates of the first row of the point grid. -/
def RectImageDetector.yaxis (d : RectImageDetector) : List ℚ :=
  (d.points.headD []).map Prod.snd

/-- `RectImageDetector.x_projection` (lines 160–170): per x-pixel, the Riemann sum of
the footprint over y (`np.nansum(intensity, axis=1) * dy`); returns the x axis and the
profile. -/
def RectImageDetector.x_projection (d : RectImageDetector)
    (fMask : Option (ℚ → ℚ → Bool)) : List ℚ × List ℚ :=
  let dy := d.yaxis.getD 1 0 - d.yaxis.getD 0 0
  (d.xaxis, (d.get_footprint fMask).map (fun row => row.sum * dy))

/-- Column sums of a row-major matrix (`np.nansum(intensity, axis=0)`), accumulated
against a zero row of width `n`. -/
def colSums (n : ℕ) (rows : List (List ℚ)) : List ℚ :=
  rows.foldl (fun acc row => List.zipWith (· + ·) acc row) (List.replicate n 0)

/-- `RectImageDetector.y_projection` (lines 172–182): per y-pixel, the Riemann sum of
the footprint over x (`np.nansum(intensity, axis=0) * dx`); returns the y axis and the
profile. -/
def RectImageDetector.y_projection (d : RectImageDetector)
    (fMask : Option (ℚ → ℚ → Bool)) : List ℚ × List ℚ :=
  let dx := d.xaxis.getD 1 0 - d.xaxis.getD 0 0
  (d.yaxis, (colSums d.pixels.2 (d.get_footprint fMask)).map (· * dx))

/-- `PolarImageDetector` (lines 184–259).  The hexapolar sampling primitive is
external; its outputs (`points`, `points_per_ring`, `weight_of_ring`) are fields. -/
structure PolarImageDetector where
  rmax : ℚ
  nrings : ℕ
  points : List Pt
  points_per_ring : List ℕ
  weight_of_ring : List ℚ
  intensity : List ℚ
deriving DecidableEq

/-- One triangle's contribution in `PolarImageDetector.add` (lines 216–218), as in the
rectangular detector but over the flat list of hexapolar sample points. -/
def accumTrianglePolar (pit : Pt → Tri → Bool) (points : List Pt) (dens : ℚ)
    (tri : Tri) (intensity : List ℚ) : List ℚ :=
  List.zipWith (fun p v => v + dens * (if pit p tri then 1 else 0)) points intensity

/-- Body of one iteration of the simplex loop in `PolarImageDetector.add`. -/
def polarAddStep (pit : Pt → Tri → Bool) (points : List Pt) (image : List Pt)
    (density : List ℚ) (sidx : ℕ) (simplex : ℕ × ℕ × ℕ) (intensity : List ℚ) :
    Option (List ℚ) :=
  match getTri image simplex, density.get? sidx with
  | some tri, some ds => some (accumTrianglePolar pit points ds tri intensity)
  | _, _ => none

/-- The simplex loop of `PolarImageDetector.add` (lines 214–218), identical in
structure to the rectangular one. -/
def polarAddLoop (pit : Pt → Tri → Bool) (points : List Pt) (image : List Pt)
    (density : List ℚ) (bSkip : List Bool) :
    ℕ → List (ℕ × ℕ × ℕ) → List ℚ → Option (List ℚ)
  | _, [], intensity => some intensity
  | s, simplex :: rest, intensity =>
    if 0 < bSkip.length then
      match bSkip.get? s with
      | none => none
      | some true => polarAddLoop pit points image density bSkip (s + 1) rest intensity
      | some false =>
        (polarAddStep pit points image density s simplex intensity).bind
          (polarAddLoop pit points image density bSkip (s + 1) rest)
    else
      (polarAddStep pit points image density s simplex intensity).bind
        (polarAddLoop pit points image density bSkip (s + 1) rest)

/-- `PolarImageDetector.add` (lines 203–218). -/
def PolarImageDetector.add (pit : Pt → Tri → Bool) (d : PolarImageDetector)
    (mesh : AdaptiveMesh) (bSkip : List Bool) (weight : ℚ) :
    Option PolarImageDetector :=
  (polarAddLoop pit d.points mesh.image (polarAddDensity mesh weight) bSkip 0
      mesh.simplices d.intensity).map
    (fun intensity => { d with intensity := intensity })

/-- Running sums of a list, `np.cumsum`. -/
def cumsum : List ℚ → List ℚ
  | [] => []
  | a :: t => a :: (cumsum t).map (a + ·)

/-- `PolarImageDetector.radial_projection` (lines 243–259).  Per ring `i`, slice
`intensity[Nr[i]:Nr[i+1]]` and average it over the ring's point count; the source also
asserts that all points of the ring lie at one radius (`np.allclose(r2[0], r2)`, an
`IndexError` on an empty ring), modelled exactly on the squared radii.  Returns the
squared ring radii (the source returns their square roots, which exist only as reals),
the radial profile, and the encircled energy
`np.cumsum(radial_profile * weight_of_ring * pi * rmax**2)`; the constant π is passed
in as the parameter `piv`. -/
def PolarImageDetector.radial_projection (piv : ℚ) (d : PolarImageDetector) :
    Option (List ℚ × List ℚ × List ℚ) := do
  let rings ← (List.range d.nrings).mapM (fun i => do
    let ppr ← d.points_per_ring.get? i
    let istart := (d.points_per_ring.take i).sum
    let seg := (d.intensity.drop istart).take ppr
    let pseg := (d.points.drop istart).take ppr
    match pseg with
    | [] => none
    | p :: rest =>
      let r2 := p.1 ^ 2 + p.2 ^ 2
      if rest.all (fun q => decide (q.1 ^ 2 + q.2 ^ 2 = r2)) then
        some (r2, seg.sum / (ppr : ℚ))
      else none)
  let radial_profile := rings.map Prod.snd
  let encircled_energy := cumsum
    (List.zipWith (fun p w => p * w * piv * d.rmax ^ 2) radial_profile
      d.weight_of_ring)
  return (rings.map Prod.fst, radial_profile, encircled_energy)

/-- `LineImageDetector` (lines 262–278): 1D detector along a segment.  `endPt` names
the field called `end` in the source (`end` is reserved in Lean). -/
structure LineImageDetector where
  pixels : ℕ
  start : Pt
  endPt : Pt
  points : List Pt
  intensity : List ℚ
deriving DecidableEq

/-- Reduced sampling coordinates `np.arange(pixels)/pixels` (line 276). -/
def xrc (n : ℕ) : List ℚ := (List.range n).map fun i : ℕ => (i : ℚ) / n

/-- `LineImageDetector.__init__` (lines 266–278):
`points = outer(1-x, start) + outer(x, end)` on the reduced coordinates. -/
def mkLine (pixels : ℕ) (start endPt : Pt) : LineImageDetector :=
  { pixels := pixels, start := start, endPt := endPt,
    points := (xrc pixels).map (fun x =>
      ((1 - x) * start.1 + x * endPt.1, (1 - x) * start.2 + x * endPt.2)),
    intensity := (xrc pixels).map (fun _ => 0) }

/-- Stable three-element sort by x-coordinate, modelling the per-triangle
`np.argsort` of the vertex x-coordinates (line 336): returns `(A, C, B)` where `A`
has minimal x, `C` the middle one and `B` maximal x; ties keep the original vertex
order.  (numpy's default sort kind need not be stable on ties, but every property
proved below is insensitive to the tie order.) -/
def sortByX (t : Tri) : Tri :=
  let a := t.1
  let b := t.2.1
  let c := t.2.2
  if a.1 ≤ b.1 then
    if b.1 ≤ c.1 then (a, b, c)
    else if a.1 ≤ c.1 then (a, c, b)
    else (c, a, b)
  else
    if a.1 ≤ c.1 then (b, a, c)
    else if b.1 ≤ c.1 then (b, c, a)
    else (c, b, a)

/-- Heights over the detector columns for one triangle with already-sorted vertices
`A`, `C`, `B` (minimal, middle, maximal x), lines 342–354 of
`__project_triangles_to_x`: `Cy` is the distance of the middle vertex to line `AB`
along y, and each column in `[Ax, Cx)` interpolates along edge `A–C`, each column in
`[Cx, Bx]` along edge `C–B`; columns outside get `0`.  Division by zero yields `0` in
`ℚ`, realizing the NaN-safe reading (the floating-point behaviour on the degenerate
denominators is modelled separately by `triHeightsSortedFP`). -/
def triHeightsSorted (A C B : Pt) (xs : List ℚ) : List ℚ :=
  let cy := qabs (C.2 - A.2 - (B.2 - A.2) * ((C.1 - A.1) / (B.1 - A.1)))
  xs.map (fun x =>
    if A.1 ≤ x ∧ x < C.1 then (x - A.1) * (cy / (C.1 - A.1))
    else if C.1 ≤ x ∧ x ≤ B.1 then (x - B.1) * (cy / (C.1 - B.1))
    else 0)

/-- Heights of one triangle over the detector columns: sort the vertices by x, then
interpolate (lines 334–354). -/
def triHeights (t : Tri) (xs : List ℚ) : List ℚ :=
  triHeightsSorted (sortByX t).1 (sortByX t).2.1 (sortByX t).2.2 xs

/-- Column-wise weighted sum over the triangles (line 358,
`np.nansum(dy*weights, axis=1)`; no NaN arises in the rational model, so the sum is
the plain sum). -/
def projectTrianglesToX (tris : List Tri) (weights : List ℚ) (xs : List ℚ) :
    List ℚ :=
  (tris.zip weights).foldl
    (fun acc tw => List.zipWith (· + ·) acc ((triHeights tw.1 xs).map (· * tw.2)))
    (xs.map (fun _ => 0))

/-- The assertion `np.all(dy >= 0)` of line 355, over all triangles and columns. -/
def heightsNonneg (tris : List Tri) (xs : List ℚ) : Bool :=
  tris.all (fun t => (triHeights t xs).all (fun h => decide (0 ≤ h)))

/-- numpy boolean indexing `arr[~mask]`: keep the entries whose mask entry is False. -/
def filterNotMask {α : Type} (l : List α) (mask : List Bool) : List α :=
  (l.zip mask).filterMap (fun p => if p.2 then none else some p.1)

/-- Rotation into line-aligned coordinates (lines 293–299):
`(p - start) · ex` along the detector, `(p - start) · ey` perpendicular to it. -/
def rotToLine (start exv eyv p : Pt) : Pt :=
  ((p.1 - start.1) * exv.1 + (p.2 - start.2) * exv.2,
    (p.1 - start.1) * eyv.1 + (p.2 - start.2) * eyv.2)

/-- `LineImageDetector.add` (lines 280–310).  `xmax = ‖end − start‖` is a square root
and generally irrational, so it is supplied as the argument `xmax`; theorems
instantiate it with the exact segment length.  The skip mask is applied by numpy
boolean indexing (`simplices[~bSkip]`, `density[~bSkip]`), which raises on a length
mismatch; the projected heights are asserted non-negative (line 355) before they are
accumulated. -/
def LineImageDetector.add (d : LineImageDetector) (xmax : ℚ) (mesh : AdaptiveMesh)
    (bSkip : List Bool) (weight : ℚ) : Option LineImageDetector :=
  (if bSkip.any id then
      if bSkip.length = mesh.simplices.length then
        some (filterNotMask mesh.simplices bSkip)
      else none
    else some mesh.simplices).bind (fun simplices =>
  (simplices.mapM (getTri mesh.image)).bind (fun tris =>
  let exv : Pt := ((d.endPt.1 - d.start.1) / xmax, (d.endPt.2 - d.start.2) / xmax)
  let eyv : Pt := (-exv.2, exv.1)
  let trisR := tris.map (fun t =>
    (rotToLine d.start exv eyv t.1, rotToLine d.start exv eyv t.2.1,
      rotToLine d.start exv eyv t.2.2))
  (if bSkip.any id then
      if bSkip.length = (lineAddDensity mesh weight).length then
        some (filterNotMask (lineAddDensity mesh weight) bSkip)
      else none
    else some (lineAddDensity mesh weight)).bind (fun density =>
  let xs := (xrc d.pixels).map (· * xmax)
  if heightsNonneg trisR xs then
    some { d with intensity :=
      List.zipWith (· + ·) d.intensity (projectTrianglesToX trisR density xs) }
  else none)))

/-- IEEE-754-style value domain used to model the floating-point evaluation of the
degenerate branches of `__project_triangles_to_x`: a finite value, a signed infinity,
or NaN. -/
inductive FP where
  | fin : ℚ → FP
  | pinf : FP
  | ninf : FP
  | nan : FP
deriving DecidableEq

/-- IEEE subtraction (cases needed for finite inputs and propagation). -/
def FP.sub : FP → FP → FP
  | fin a, fin b => fin (a - b)
  | pinf, fin _ => pinf
  | ninf, fin _ => ninf
  | fin _, pinf => ninf
  | fin _, ninf => pinf
  | pinf, ninf => pinf
  | ninf, pinf => ninf
  | pinf, pinf => nan
  | ninf, ninf => nan
  | nan, _ => nan
  | _, nan => nan

/-- IEEE multiplication: `0 * ±inf = NaN`. -/
def FP.mul : FP → FP → FP
  | fin a, fin b => fin (a * b)
  | fin a, pinf => if 0 < a then pinf else if a < 0 then ninf else nan
  | fin a, ninf => if 0 < a then ninf else if a < 0 then pinf else nan
  | pinf, fin a => if 0 < a then pinf else if a < 0 then ninf else nan
  | ninf, fin a => if 0 < a then ninf else if a < 0 then pinf else nan
  | pinf, pinf => pinf
  | pinf, ninf => ninf
  | ninf, pinf => ninf
  | ninf, ninf => pinf
  | nan, _ => nan
  | _, nan => nan

/-- IEEE division: a nonzero finite value divided by zero is a signed infinity,
`0 / 0 = NaN`. -/
def FP.div : FP → FP → FP
  | fin a, fin b =>
    if b = 0 then (if 0 < a then pinf else if a < 0 then ninf else nan)
    else fin (a / b)
  | pinf, fin b => if 0 ≤ b then pinf else ninf
  | ninf, fin b => if 0 ≤ b then ninf else pinf
  | fin _, pinf => fin 0
  | fin _, ninf => fin 0
  | pinf, pinf => nan
  | pinf, ninf => nan
  | ninf, pinf => nan
  | ninf, ninf => nan
  | nan, _ => nan
  | _, nan => nan

/-- IEEE absolute value. -/
def FP.abs : FP → FP
  | fin a => fin (qabs a)
  | pinf => pinf
  | ninf => pinf
  | nan => nan

/-- The comparison `dy >= 0`; IEEE comparisons involving NaN are false. -/
def FP.ge0 : FP → Bool
  | fin a => decide (0 ≤ a)
  | pinf => true
  | ninf => false
  | nan => false

/-- Floating-point evaluation of the heights of lines 342–354 for sorted vertices:
identical expression tree to `triHeightsSorted`, but with IEEE semantics for the
divisions by `Bx - Ax`, `Cx - Ax` and `Cx - Bx` (the branch selections and the vertex
sort compare finite coordinates only). -/
def triHeightsSortedFP (A C B : Pt) (xs : List ℚ) : List FP :=
  let cy := FP.abs (FP.sub (FP.fin (C.2 - A.2))
    (FP.mul (FP.fin (B.2 - A.2)) (FP.div (FP.fin (C.1 - A.1)) (FP.fin (B.1 - A.1)))))
  xs.map (fun x =>
    if A.1 ≤ x ∧ x < C.1 then
      FP.mul (FP.fin (x - A.1)) (FP.div cy (FP.fin (C.1 - A.1)))
    else if C.1 ≤ x ∧ x ≤ B.1 then
      FP.mul (FP.fin (x - B.1)) (FP.div cy (FP.fin (C.1 - B.1)))
    else FP.fin 0)

/-- Floating-point heights of one triangle: sort, then interpolate with IEEE
semantics. -/
def triHeightsFP (t : Tri) (xs : List ℚ) : List FP :=
  triHeightsSortedFP (sortByX t).1 (sortByX t).2.1 (sortByX t).2.2 xs

/-- The assertion `np.all(dy >= 0)` of line 355 under floating-point evaluation. -/
def heightsNonnegFP (tris : List Tri) (xs : List ℚ) : Bool :=
  tris.all (fun t => (triHeightsFP t xs).all FP.ge0)

/-- A triangle degenerate in the sorted x-order: after sorting, its middle and maximal
vertices share the x-coordinate 1/2 (`Cx == Bx`). -/
def degTriangle : Tri := ((0, 0), (1/2, 1), (1/2, 0))

/-- C5 (code bug): on the sample columns of a 2-pixel line detector from (0,0) to
(1,0) (`xmax = 1`, columns 0 and 1/2), the floating-point evaluation of the CB
interpolation branch of the degenerate triangle `degTriangle` at the column
`x = 1/2 = Cx = Bx` computes `(x-Bx) * (Cy/(Cx-Bx)) = 0 * (1/0) = 0 * inf = NaN`;
the assertion `np.all(dy>=0)` of line 355 is therefore False (IEEE comparisons with
NaN are false) and `add` raises AssertionError instead of letting the branch
contribute zero.  The NaN-safe rational model `triHeights` (division by zero gives 0)
yields the zero contribution the claim demands, confirming the divergence is a defect
of the floating-point code path. -/
theorem lineProjection_degenerate_nan :
    triHeightsFP degTriangle ((xrc 2).map (· * 1)) = [FP.fin 0, FP.nan] ∧
      heightsNonnegFP [degTriangle] ((xrc 2).map (· * 1)) = false ∧
      triHeights degTriangle ((xrc 2).map (· * 1)) = [0, 0] := by
  norm_num [triHeightsFP, triHeightsSortedFP, triHeights, triHeightsSorted,
    heightsNonnegFP, degTriangle, sortByX, xrc, List.range_succ, qabs, FP.abs,
    FP.sub, FP.mul, FP.div, FP.ge0]

/-- Squared euclidean norm of a plane vector (‖·‖ itself is a square root and in
general irrational). -/
def normSq (p : Pt) : ℚ := p.1 ^ 2 + p.2 ^ 2

theorem mkLine_points_get (N : ℕ) (start endPt : Pt) (i : ℕ) (hi : i < N) :
    (mkLine N start endPt).points.get? i =
      some ((1 - (i : ℚ) / N) * start.1 + (i : ℚ) / N * endPt.1,
        (1 - (i : ℚ) / N) * start.2 + (i : ℚ) / N * endPt.2) := by
  have hmap : ∀ f : ℚ → Pt, ((xrc N).map f).get? i = some (f ((i : ℚ) / N)) := by
    intro f
    rw [xrc, List.map_map, List.get?_eq_getElem?, List.getElem?_map,
      List.getElem?_range hi]
    rfl
  exact hmap _

/-- C10 counterexample: a line detector constructed with coincident start and end
points samples the end point itself (its only sample point equals `endPt`), refuting
"the end point itself is never a sample location" as stated for every constructed
detector. -/
theorem mkLine_end_sampled :
    (mkLine 1 (0, 0) (0, 0)).points.get? 0 =
      some ((mkLine 1 (0, 0) (0, 0)).endPt) := by
  norm_num [mkLine, xrc, List.range_succ]

/-- C10 (amended): for a line detector with `N` pixels, the `i`-th sample point
(`i < N`) is `start + (i/N)·(end − start)`, consecutive samples are `(end − start)/N`
apart (stated on squared norms: `‖Δ‖² = ‖end − start‖²/N²`), and — provided
`start ≠ end` — no sample point equals the end point.  (When `start = end` every
sample point trivially coincides with the end point.) -/
theorem mkLine_sample_points (N : ℕ) (start endPt : Pt) (i : ℕ) (hi : i < N)
    (hne : start ≠ endPt) :
    (mkLine N start endPt).points.get? i =
        some (start.1 + (i : ℚ) / N * (endPt.1 - start.1),
          start.2 + (i : ℚ) / N * (endPt.2 - start.2)) ∧
      (∀ j : ℕ, j + 1 < N →
        normSq (((mkLine N start endPt).points.getD (j + 1) (0, 0)).1 -
              ((mkLine N start endPt).points.getD j (0, 0)).1,
            ((mkLine N start endPt).points.getD (j + 1) (0, 0)).2 -
              ((mkLine N start endPt).points.getD j (0, 0)).2) =
          normSq (endPt.1 - start.1, endPt.2 - start.2) / (N : ℚ) ^ 2) ∧
      (mkLine N start endPt).points.get? i ≠ some endPt := by
  have hN : 0 < N := lt_of_le_of_lt (Nat.zero_le i) hi
  have hNQ : (N : ℚ) ≠ 0 := Nat.cast_ne_zero.mpr hN.ne'
  refine ⟨?_, ?_, ?_⟩
  · rw [mkLine_points_get N start endPt i hi]
    congr 1
    rw [Prod.ext_iff]
    constructor <;> ring
  · intro j hj
    have hj1 : j < N := Nat.lt_of_succ_lt hj
    have hgj := mkLine_points_get N start endPt j hj1
    have hgj1 := mkLine_points_get N start endPt (j + 1) hj
    rw [List.getD_eq_getElem?_getD, List.getD_eq_getElem?_getD,
      ← List.get?_eq_getElem?, ← List.get?_eq_getElem?, hgj, hgj1]
    simp only [Option.getD_some, normSq]
    push_cast
    field_simp
    ring
  · rw [mkLine_points_get N start endPt i hi]
    intro h
    rw [Option.some_inj, Prod.ext_iff] at h
    obtain ⟨h1, h2⟩ := h
    have hx : (i : ℚ) / N ≠ 1 := by
      have : (i : ℚ) / N < 1 := by
        rw [div_lt_one (by exact_mod_cast hN)]
        exact_mod_cast hi
      exact this.ne
    have hfac : (1 : ℚ) - (i : ℚ) / N ≠ 0 := fun hc => hx (by linarith [hc])
    apply hne
    rw [Prod.ext_iff]
    constructor
    · have : (1 - (i : ℚ) / N) * start.1 = (1 - (i : ℚ) / N) * endPt.1 := by
        ring_nf
        ring_nf at h1
        linarith [h1]
      exact mul_left_cancel₀ hfac this
    · have : (1 - (i : ℚ) / N) * start.2 = (1 - (i : ℚ) / N) * endPt.2 := by
        ring_nf
        ring_nf at h2
        linarith [h2]
      exact mul_left_cancel₀ hfac this

/-- Containment oracle that reports every sample point inside every triangle; the
external `point_in_triangle` is opaque, so theorems quantify over the oracle and
witnesses may instantiate it arbitrarily. -/
def pitAll : Pt → Tri → Bool := fun _ _ => true

/-- Mesh with a single unit right triangle mapped identically: domain area 1, image
area 1, initial domain area 1. -/
def meshUnitTriangle : AdaptiveMesh :=
  { simplices := [(0, 1, 2)], image := [(0, 0), (1, 0), (0, 1)], domainAreas := [1],
    imageAreas := [1], initialDomainArea := 1, findBroken := fun _ => [false] }

/-- Mesh with the same unit right triangle listed twice. -/
def meshTwoTriangles : AdaptiveMesh :=
  { simplices := [(0, 1, 2), (0, 1, 2)], image := [(0, 0), (1, 0), (0, 1)],
    domainAreas := [1, 1], imageAreas := [1, 1], initialDomainArea := 1,
    findBroken := fun _ => [false, false] }

theorem rectAddLoop_mask_short (pit : Pt → Tri → Bool) (points : List (List Pt))
    (image : List Pt) (density : List ℚ) (bSkip : List Bool) :
    ∀ (items : List (ℕ × ℕ × ℕ)) (s : ℕ) (intensity : List (List ℚ)),
      0 < bSkip.length → s ≤ bSkip.length → bSkip.length < s + items.length →
      rectAddLoop pit points image density bSkip s items intensity = none := by
  intro items
  induction items with
  | nil =>
    intro s intensity h0 hs hl
    simp only [List.length_nil, Nat.add_zero] at hl
    omega
  | cons j rest ih =>
    intro s intensity h0 hs hl
    unfold rectAddLoop
    rw [if_pos h0]
    rcases Nat.lt_or_ge s bSkip.length with hlt | hge
    · rw [List.get?_eq_get hlt]
      cases hb : bSkip.get ⟨s, hlt⟩
      · rcases hstep : rectAddStep pit points image density s j intensity with _ | I3
        · simp
        · simp only [Option.bind_some]
          exact ih (s + 1) I3 h0 hlt (by simp only [List.length_cons] at hl; omega)
      · exact ih (s + 1) intensity h0 hlt (by simp only [List.length_cons] at hl; omega)
    · have hs2 : s = bSkip.length := le_antisymm hs hge
      rw [List.get?_eq_none.mpr (by omega)]

theorem polarAddLoop_mask_short (pit : Pt → Tri → Bool) (points : List Pt)
    (image : List Pt) (density : List ℚ) (bSkip : List Bool) :
    ∀ (items : List (ℕ × ℕ × ℕ)) (s : ℕ) (intensity : List ℚ),
      0 < bSkip.length → s ≤ bSkip.length → bSkip.length < s + items.length →
      polarAddLoop pit points image density bSkip s items intensity = none := by
  intro items
  induction items with
  | nil =>
    intro s intensity h0 hs hl
    simp only [List.length_nil, Nat.add_zero] at hl
    omega
  | cons j rest ih =>
    intro s intensity h0 hs hl
    unfold polarAddLoop
    rw [if_pos h0]
    rcases Nat.lt_or_ge s bSkip.length with hlt | hge
    · rw [List.get?_eq_get hlt]
      cases hb : bSkip.get ⟨s, hlt⟩
      · rcases hstep : polarAddStep pit points image density s j intensity with _ | I3
        · simp
        · simp only [Option.bind_some]
          exact ih (s + 1) I3 h0 hlt (by simp only [List.length_cons] at hl; omega)
      · exact ih (s + 1) intensity h0 hlt (by simp only [List.length_cons] at hl; omega)
    · have hs2 : s = bSkip.length := le_antisymm hs hge
      rw [List.get?_eq_none.mpr (by omega)]

/-- C8 counterexample: a skip mask of length 2 on a one-triangle mesh — a length
mismatch — is silently accepted by `RectImageDetector.add` (the call completes),
refuting "every length mismatch fails immediately". -/
theorem add_mask_mismatch_accepted :
    [false, false].length ≠ meshUnitTriangle.simplices.length ∧
      (RectImageDetector.add pitAll (mkRect (2, 2) (1, 1) (0, 0)) meshUnitTriangle
          [false, false] 1).isSome = true := by
  constructor
  · norm_num [meshUnitTriangle]
  · norm_num [RectImageDetector.add, rectAddLoop, rectAddStep, getTri, mkRect,
      axisCenters, meshUnitTriangle, rectAddDensity, qabs, accumTriangle, pitAll,
      List.range_succ, List.get?]

/-- C8 (amended): the failure condition depends on the detector and the mismatch
direction.  For the rectangular and polar detectors, `add` raises exactly when the
skip mask is non-empty and strictly shorter than the triangle count (`bSkip[s]`
overruns; an empty or over-long mask is accepted).  For the line detector (and the
check detector, via `triangle_area[bSkip]`), numpy boolean indexing raises whenever
the mask contains a True entry and its length differs from the triangle count in
either direction (an all-False mask of any length is accepted). -/
theorem add_mask_mismatch_failure :
    (∀ (pit : Pt → Tri → Bool) (d : RectImageDetector) (mesh : AdaptiveMesh)
        (bSkip : List Bool) (weight : ℚ), 0 < bSkip.length →
        bSkip.length < mesh.simplices.length →
        RectImageDetector.add pit d mesh bSkip weight = none) ∧
      (∀ (pit : Pt → Tri → Bool) (d : PolarImageDetector) (mesh : AdaptiveMesh)
        (bSkip : List Bool) (weight : ℚ), 0 < bSkip.length →
        bSkip.length < mesh.simplices.length →
        PolarImageDetector.add pit d mesh bSkip weight = none) ∧
      (∀ (d : LineImageDetector) (xmax : ℚ) (mesh : AdaptiveMesh)
        (bSkip : List Bool) (weight : ℚ), bSkip.any id = true →
        bSkip.length ≠ mesh.simplices.length →
        LineImageDetector.add d xmax mesh bSkip weight = none) ∧
      (∀ (mesh : AdaptiveMesh) (bSkip : List Bool), bSkip.any id = true →
        bSkip.length ≠ mesh.domainAreas.length →
        CheckTriangulationDetector.add mesh bSkip = none) := by
  refine ⟨?_, ?_, ?_, ?_⟩
  · intro pit d mesh bSkip weight h0 hlen
    unfold RectImageDetector.add
    rw [rectAddLoop_mask_short pit d.points mesh.image (rectAddDensity mesh weight)
      bSkip mesh.simplices 0 d.intensity h0 (Nat.zero_le _) (by omega)]
    rfl
  · intro pit d mesh bSkip weight h0 hlen
    unfold PolarImageDetector.add
    rw [polarAddLoop_mask_short pit d.points mesh.image (polarAddDensity mesh weight)
      bSkip mesh.simplices 0 d.intensity h0 (Nat.zero_le _) (by omega)]
    rfl
  · intro d xmax mesh bSkip weight hany hlen
    unfold LineImageDetector.add
    rw [if_pos hany, if_neg hlen]
    rfl
  · intro mesh bSkip hany hlen
    unfold CheckTriangulationDetector.add
    by_cases h : mesh.domainAreas.all (fun a => decide (0 < a))
    · rw [if_pos h, if_pos hany, if_neg hlen]
    · rw [if_neg h]

/-- C8 witness: the amended failure conditions at concrete inputs — mask `[true]` on
the two-triangle mesh for the rectangular and polar detectors, and on the one-triangle
mesh for the line and check detectors. -/
theorem add_mask_mismatch_failure_witness :
    RectImageDetector.add pitAll (mkRect (2, 2) (1, 1) (0, 0)) meshTwoTriangles
        [true] 1 = none ∧
      PolarImageDetector.add pitAll
        { rmax := 1, nrings := 1, points := [(0, 0)], points_per_ring := [1],
          weight_of_ring := [1], intensity := [0] } meshTwoTriangles [true] 1 = none ∧
      LineImageDetector.add (mkLine 2 (0, 0) (1, 0)) 1 meshTwoTriangles
        [true] 1 = none ∧
      CheckTriangulationDetector.add meshTwoTriangles [true] = none := by
  refine ⟨?_, ?_, ?_, ?_⟩
  · exact add_mask_mismatch_failure.1 pitAll _ meshTwoTriangles [true] 1
      (by norm_num) (by norm_num [meshTwoTriangles])
  · exact add_mask_mismatch_failure.2.1 pitAll _ meshTwoTriangles [true] 1
      (by norm_num) (by norm_num [meshTwoTriangles])
  · exact add_mask_mismatch_failure.2.2.1 _ 1 meshTwoTriangles [true] 1
      (by norm_num) (by norm_num [meshTwoTriangles])
  · exact add_mask_mismatch_failure.2.2.2 meshTwoTriangles [true]
      (by norm_num) (by norm_num [meshTwoTriangles])

/-- C10 witness: the amended theorem at `N = 2`, `start = (0,0)`, `end = (1,0)`,
`i = 1`. -/
theorem mkLine_sample_points_witness :
    (mkLine 2 ((0 : ℚ), (0 : ℚ)) (1, 0)).points.get? 1 =
        some (((0 : ℚ), (0 : ℚ)).1 + (1 : ℚ) / 2 * (((1 : ℚ), (0 : ℚ)).1 - ((0 : ℚ), (0 : ℚ)).1),
          ((0 : ℚ), (0 : ℚ)).2 + (1 : ℚ) / 2 * (((1 : ℚ), (0 : ℚ)).2 - ((0 : ℚ), (0 : ℚ)).2)) ∧
      (∀ j : ℕ, j + 1 < 2 →
        normSq (((mkLine 2 ((0 : ℚ), (0 : ℚ)) (1, 0)).points.getD (j + 1) (0, 0)).1 -
              ((mkLine 2 ((0 : ℚ), (0 : ℚ)) (1, 0)).points.getD j (0, 0)).1,
            ((mkLine 2 ((0 : ℚ), (0 : ℚ)) (1, 0)).points.getD (j + 1) (0, 0)).2 -
              ((mkLine 2 ((0 : ℚ), (0 : ℚ)) (1, 0)).points.getD j (0, 0)).2) =
          normSq (((1 : ℚ), (0 : ℚ)).1 - ((0 : ℚ), (0 : ℚ)).1,
            ((1 : ℚ), (0 : ℚ)).2 - ((0 : ℚ), (0 : ℚ)).2) / ((2 : ℕ) : ℚ) ^ 2) ∧
      (mkLine 2 ((0 : ℚ), (0 : ℚ)) (1, 0)).points.get? 1 ≠ some (1, 0) := by
  have h := mkLine_sample_points 2 ((0 : ℚ), (0 : ℚ)) (1, 0) 1 (by norm_num)
    (by intro hc; rw [Prod.ext_iff] at hc; norm_num at hc)
  convert h using 3

theorem mem_zipWith {α β γ : Type} {f : α → β → γ} {c : γ} :
    ∀ {l1 : List α} {l2 : List β}, c ∈ List.zipWith f l1 l2 →
      ∃ a ∈ l1, ∃ b ∈ l2, c = f a b := by
  intro l1
  induction l1 with
  | nil => intro l2 h; simp at h
  | cons a t ih =>
    intro l2 h
    cases l2 with
    | nil => simp at h
    | cons b t2 =>
      rw [List.zipWith_cons_cons] at h
      rcases List.mem_cons.mp h with h1 | h1
      · exact ⟨a, List.mem_cons_self a t, b, List.mem_cons_self b t2, h1⟩
      · obtain ⟨x, hx, y, hy, hxy⟩ := ih h1
        exact ⟨x, List.mem_cons_of_mem a hx, y, List.mem_cons_of_mem b hy, hxy⟩

theorem rectAddDensity_nonneg (mesh : AdaptiveMesh) (weight : ℚ) (hw : 0 ≤ weight) :
    ∀ q ∈ rectAddDensity mesh weight, 0 ≤ q := by
  intro q hq
  rw [rectAddDensity] at hq
  obtain ⟨a, _, b, _, rfl⟩ := mem_zipWith hq
  exact mul_nonneg hw (qabs_nonneg _)

theorem forall₂_le_refl (l : List ℚ) : List.Forall₂ (· ≤ ·) l l :=
  List.forall₂_same.mpr (fun x _ => le_refl x)

theorem forall₂_le_trans {a b c : List ℚ} (h1 : List.Forall₂ (· ≤ ·) a b)
    (h2 : List.Forall₂ (· ≤ ·) b c) : List.Forall₂ (· ≤ ·) a c := by
  induction h1 generalizing c with
  | nil => exact h2
  | cons hab htail ih =>
    cases h2 with
    | cons hbc h2tail => exact List.Forall₂.cons (le_trans hab hbc) (ih h2tail)

theorem forall₂₂_le_refl (I : List (List ℚ)) :
    List.Forall₂ (List.Forall₂ (· ≤ ·)) I I :=
  List.forall₂_same.mpr (fun x _ => forall₂_le_refl x)

theorem forall₂₂_le_trans {a b c : List (List ℚ)}
    (h1 : List.Forall₂ (List.Forall₂ (· ≤ ·)) a b)
    (h2 : List.Forall₂ (List.Forall₂ (· ≤ ·)) b c) :
    List.Forall₂ (List.Forall₂ (· ≤ ·)) a c := by
  induction h1 generalizing c with
  | nil => exact h2
  | cons hab htail ih =>
    cases h2 with
    | cons hbc h2tail =>
      exact List.Forall₂.cons (forall₂_le_trans hab hbc) (ih h2tail)

/-- Shape compatibility of a sampling grid and an intensity buffer of the rectangular
detector. -/
def shape2OK (points : List (List Pt)) (I : List (List ℚ)) : Prop :=
  List.Forall₂ (fun prow irow => prow.length = irow.length) points I

theorem accumRow_le (g : Pt → ℚ → ℚ) (hg : ∀ p v, v ≤ g p v) :
    ∀ (prow : List Pt) (irow : List ℚ), prow.length = irow.length →
      List.Forall₂ (· ≤ ·) irow (List.zipWith (fun p v => g p v) prow irow) := by
  intro prow
  induction prow with
  | nil =>
    intro irow h
    cases irow
    · exact List.Forall₂.nil
    · simp at h
  | cons p pt ih =>
    intro irow h
    cases irow with
    | nil => simp at h
    | cons v vt =>
      rw [List.zipWith_cons_cons]
      exact List.Forall₂.cons (hg p v) (ih vt (by simpa using h))

theorem zipWith_length_left {α β γ : Type} (f : α → β → γ) (l1 : List α)
    (l2 : List β) (h : l1.length = l2.length) :
    (List.zipWith f l1 l2).length = l1.length := by
  rw [List.length_zipWith, h, Nat.min_self]

theorem accumTriangle_le (pit : Pt → Tri → Bool) (tri : Tri) (dens : ℚ)
    (hd : 0 ≤ dens) :
    ∀ (points : List (List Pt)) (I : List (List ℚ)), shape2OK points I →
      List.Forall₂ (List.Forall₂ (· ≤ ·)) I (accumTriangle pit points dens tri I) ∧
        shape2OK points (accumTriangle pit points dens tri I) := by
  have hg : ∀ (p : Pt) (v : ℚ), v ≤ v + dens * (if pit p tri then 1 else 0) := by
    intro p v
    have : 0 ≤ dens * (if pit p tri then 1 else 0) := by
      apply mul_nonneg hd
      split <;> norm_num
    linarith
  intro points I h
  induction h with
  | nil => exact ⟨List.Forall₂.nil, List.Forall₂.nil⟩
  | cons hab htail ih =>
    rw [accumTriangle, List.zipWith_cons_cons]
    refine ⟨List.Forall₂.cons (accumRow_le _ hg _ _ hab) ?_,
        List.Forall₂.cons ?_ ?_⟩
    · exact ih.1
    · exact (zipWith_length_left _ _ _ hab).symm
    · exact ih.2

theorem rectAddStep_mono (pit : Pt → Tri → Bool) (points : List (List Pt))
    (image : List Pt) (density : List ℚ) (s : ℕ) (j : ℕ × ℕ × ℕ)
    (I I3 : List (List ℚ)) (hdens : ∀ q ∈ density, 0 ≤ q) (hsh : shape2OK points I)
    (h : rectAddStep pit points image density s j I = some I3) :
    List.Forall₂ (List.Forall₂ (· ≤ ·)) I I3 ∧ shape2OK points I3 := by
  unfold rectAddStep at h
  rcases hget : getTri image j with _ | tri <;> rw [hget] at h
  · exact absurd h (by simp)
  · rcases hd : density.get? s with _ | ds <;> rw [hd] at h
    · exact absurd h (by simp)
    · injection h with h
      subst h
      exact accumTriangle_le pit tri ds (hdens ds (List.get?_mem hd)) points I hsh

theorem rectAddLoop_mono (pit : Pt → Tri → Bool) (points : List (List Pt))
    (image : List Pt) (density : List ℚ) (bSkip : List Bool)
    (hdens : ∀ q ∈ density, 0 ≤ q) :
    ∀ (items : List (ℕ × ℕ × ℕ)) (s : ℕ) (I I2 : List (List ℚ)),
      shape2OK points I →
      rectAddLoop pit points image density bSkip s items I = some I2 →
      List.Forall₂ (List.Forall₂ (· ≤ ·)) I I2 := by
  intro items
  induction items with
  | nil =>
    intro s I I2 hsh h
    unfold rectAddLoop at h
    injection h with h
    subst h
    exact forall₂₂_le_refl I
  | cons j rest ih =>
    intro s I I2 hsh h
    unfold rectAddLoop at h
    by_cases h0 : 0 < bSkip.length
    · rw [if_pos h0] at h
      rcases hb : bSkip.get? s with _ | b <;> rw [hb] at h
      · exact absurd h (by simp)
      · cases b
        · dsimp only at h
          obtain ⟨I3, hstep, h2⟩ := Option.bind_eq_some.mp h
          obtain ⟨hle, hsh3⟩ :=
            rectAddStep_mono pit points image density s j I I3 hdens hsh hstep
          exact forall₂₂_le_trans hle (ih (s + 1) I3 I2 hsh3 h2)
        · exact ih (s + 1) I I2 hsh h
    · rw [if_neg h0] at h
      obtain ⟨I3, hstep, h2⟩ := Option.bind_eq_some.mp h
      obtain ⟨hle, hsh3⟩ :=
        rectAddStep_mono pit points image density s j I I3 hdens hsh hstep
      exact forall₂₂_le_trans hle (ih (s + 1) I3 I2 hsh3 h2)

theorem polarAddStep_mono (pit : Pt → Tri → Bool) (points : List Pt)
    (image : List Pt) (density : List ℚ) (s : ℕ) (j : ℕ × ℕ × ℕ)
    (I I3 : List ℚ) (hdens : ∀ q ∈ density, 0 ≤ q)
    (hsh : points.length = I.length)
    (h : polarAddStep pit points image density s j I = some I3) :
    List.Forall₂ (· ≤ ·) I I3 ∧ points.length = I3.length := by
  unfold polarAddStep at h
  rcases hget : getTri image j with _ | tri <;> rw [hget] at h
  · exact absurd h (by simp)
  · rcases hd : density.get? s with _ | ds <;> rw [hd] at h
    · exact absurd h (by simp)
    · injection h with h
      subst h
      have hdsn : 0 ≤ ds := hdens ds (List.get?_mem hd)
      constructor
      · apply accumRow_le _ _ _ _ hsh
        intro p v
        have : 0 ≤ ds * (if pit p tri then 1 else 0) := by
          apply mul_nonneg hdsn
          split <;> norm_num
        linarith
      · exact (zipWith_length_left _ _ _ hsh).symm

theorem polarAddLoop_mono (pit : Pt → Tri → Bool) (points : List Pt)
    (image : List Pt) (density : List ℚ) (bSkip : List Bool)
    (hdens : ∀ q ∈ density, 0 ≤ q) :
    ∀ (items : List (ℕ × ℕ × ℕ)) (s : ℕ) (I I2 : List ℚ),
      points.length = I.length →
      polarAddLoop pit points image density bSkip s items I = some I2 →
      List.Forall₂ (· ≤ ·) I I2 := by
  intro items
  induction items with
  | nil =>
    intro s I I2 hsh h
    unfold polarAddLoop at h
    injection h with h
    subst h
    exact forall₂_le_refl I
  | cons j rest ih =>
    intro s I I2 hsh h
    unfold polarAddLoop at h
    by_cases h0 : 0 < bSkip.length
    · rw [if_pos h0] at h
      rcases hb : bSkip.get? s with _ | b <;> rw [hb] at h
      · exact absurd h (by simp)
      · cases b
        · dsimp only at h
          obtain ⟨I3, hstep, h2⟩ := Option.bind_eq_some.mp h
          obtain ⟨hle, hsh3⟩ :=
            polarAddStep_mono pit points image density s j I I3 hdens hsh hstep
          exact forall₂_le_trans hle (ih (s + 1) I3 I2 hsh3 h2)
        · exact ih (s + 1) I I2 hsh h
    · rw [if_neg h0] at h
      obtain ⟨I3, hstep, h2⟩ := Option.bind_eq_some.mp h
      obtain ⟨hle, hsh3⟩ :=
        polarAddStep_mono pit points image density s j I I3 hdens hsh hstep
      exact forall₂_le_trans hle (ih (s + 1) I3 I2 hsh3 h2)

theorem sortByX_sorted (t : Tri) :
    (sortByX t).1.1 ≤ (sortByX t).2.1.1 ∧ (sortByX t).2.1.1 ≤ (sortByX t).2.2.1 := by
  simp only [sortByX]
  split_ifs with h1 h2 h3 h4 h5 <;> constructor <;> dsimp only <;> linarith

theorem triHeightsSorted_nonneg (A C B : Pt) (xs : List ℚ) (hac : A.1 ≤ C.1)
    (hcb : C.1 ≤ B.1) : ∀ h ∈ triHeightsSorted A C B xs, 0 ≤ h := by
  intro h hh
  unfold triHeightsSorted at hh
  rw [List.mem_map] at hh
  obtain ⟨x, _, rfl⟩ := hh
  split_ifs with hb1 hb2
  · apply mul_nonneg (by linarith [hb1.1])
    apply div_nonneg (qabs_nonneg _)
    linarith [hb1.1, hb1.2]
  · rcases eq_or_lt_of_le hcb with heq | hlt
    · rw [heq, sub_self, div_zero, mul_zero]
    · have h1 : qabs (C.2 - A.2 - (B.2 - A.2) * ((C.1 - A.1) / (B.1 - A.1))) /
          (C.1 - B.1) ≤ 0 :=
        div_nonpos_of_nonneg_of_nonpos (qabs_nonneg _) (by linarith)
      have h2 : x - B.1 ≤ 0 := by linarith [hb2.2]
      have key := mul_nonneg (neg_nonneg.mpr h2) (neg_nonneg.mpr h1)
      rw [neg_mul_neg] at key
      exact key
  · exact le_refl 0

theorem triHeights_nonneg (t : Tri) (xs : List ℚ) :
    ∀ h ∈ triHeights t xs, 0 ≤ h := by
  obtain ⟨hac, hcb⟩ := sortByX_sorted t
  exact triHeightsSorted_nonneg _ _ _ xs hac hcb

theorem heightsNonneg_true (tris : List Tri) (xs : List ℚ) :
    heightsNonneg tris xs = true := by
  unfold heightsNonneg
  rw [List.all_eq_true]
  intro t _
  rw [List.all_eq_true]
  intro h hh
  rw [decide_eq_true_eq]
  exact triHeights_nonneg t xs h hh

theorem triHeights_length (t : Tri) (xs : List ℚ) :
    (triHeights t xs).length = xs.length := by
  unfold triHeights triHeightsSorted
  rw [List.length_map]

theorem projectTrianglesToX_length (tris : List Tri) (weights : List ℚ)
    (xs : List ℚ) : (projectTrianglesToX tris weights xs).length = xs.length := by
  unfold projectTrianglesToX
  suffices key : ∀ (l : List (Tri × ℚ)) (acc : List ℚ), acc.length = xs.length →
      (l.foldl (fun acc tw =>
        List.zipWith (· + ·) acc ((triHeights tw.1 xs).map (· * tw.2))) acc).length =
        xs.length by
    exact key _ _ (by rw [List.length_map])
  intro l
  induction l with
  | nil => intro acc h; exact h
  | cons tw rest ih =>
    intro acc h
    rw [List.foldl_cons]
    apply ih
    rw [List.length_zipWith, List.length_map, triHeights_length, h, Nat.min_self]

theorem projectTrianglesToX_nonneg (tris : List Tri) (weights : List ℚ)
    (xs : List ℚ) (hw : ∀ w ∈ weights, 0 ≤ w) :
    ∀ q ∈ projectTrianglesToX tris weights xs, 0 ≤ q := by
  unfold projectTrianglesToX
  suffices key : ∀ (l : List (Tri × ℚ)) (acc : List ℚ), (∀ p ∈ l, 0 ≤ p.2) →
      (∀ q ∈ acc, 0 ≤ q) →
      ∀ q ∈ l.foldl (fun acc tw =>
        List.zipWith (· + ·) acc ((triHeights tw.1 xs).map (· * tw.2))) acc, 0 ≤ q by
    apply key
    · intro p hp
      exact hw p.2 (List.of_mem_zip hp).2
    · intro q hq
      rw [List.mem_map] at hq
      obtain ⟨_, _, rfl⟩ := hq
      exact le_refl 0
  intro l
  induction l with
  | nil => intro acc _ h2; exact h2
  | cons tw rest ih =>
    intro acc h1 h2
    rw [List.foldl_cons]
    apply ih _ (fun p hp => h1 p (List.mem_cons_of_mem _ hp))
    intro q hq
    obtain ⟨a, ha, b, hb, rfl⟩ := mem_zipWith hq
    have hbn : 0 ≤ b := by
      rw [List.mem_map] at hb
      obtain ⟨hgt, hh, rfl⟩ := hb
      exact mul_nonneg (triHeights_nonneg _ _ _ hh)
        (h1 tw (List.mem_cons_self _ _))
    exact add_nonneg (h2 a ha) hbn

theorem forall₂_le_add_right :
    ∀ (a b : List ℚ), a.length = b.length → (∀ q ∈ b, 0 ≤ q) →
      List.Forall₂ (· ≤ ·) a (List.zipWith (· + ·) a b) := by
  intro a
  induction a with
  | nil =>
    intro b h _
    cases b
    · exact List.Forall₂.nil
    · simp at h
  | cons x xt ih =>
    intro b h hb
    cases b with
    | nil => simp at h
    | cons y yt =>
      rw [List.zipWith_cons_cons]
      refine List.Forall₂.cons ?_ (ih yt (by simpa using h)
        (fun q hq => hb q (List.mem_cons_of_mem _ hq)))
      have : 0 ≤ y := hb y (List.mem_cons_self _ _)
      linarith

theorem mem_filterNotMask {α : Type} {l : List α} {mask : List Bool} {a : α}
    (h : a ∈ filterNotMask l mask) : a ∈ l := by
  unfold filterNotMask at h
  rw [List.mem_filterMap] at h
  obtain ⟨p, hp, hpa⟩ := h
  by_cases hb : p.2
  · rw [if_pos hb] at hpa
    exact absurd hpa (by simp)
  · rw [if_neg hb] at hpa
    injection hpa with hpa
    subst hpa
    exact (List.of_mem_zip hp).1

theorem lineAdd_mono (d : LineImageDetector) (xmax : ℚ) (mesh : AdaptiveMesh)
    (bSkip : List Bool) (weight : ℚ) (d2 : LineImageDetector) (hw : 0 ≤ weight)
    (hlen : d.intensity.length = d.pixels)
    (h : LineImageDetector.add d xmax mesh bSkip weight = some d2) :
    List.Forall₂ (· ≤ ·) d.intensity d2.intensity := by
  unfold LineImageDetector.add at h
  obtain ⟨simplices, hs1, h⟩ := Option.bind_eq_some.mp h
  obtain ⟨tris, hs2, h⟩ := Option.bind_eq_some.mp h
  obtain ⟨density, hs3, h⟩ := Option.bind_eq_some.mp h
  simp only [heightsNonneg_true, if_true, Option.some.injEq] at h
  subst h
  have hdens : ∀ q ∈ density, 0 ≤ q := by
    intro q hq
    have hq2 : q ∈ lineAddDensity mesh weight := by
      by_cases hany : bSkip.any id
      · rw [if_pos hany] at hs3
        by_cases hl : bSkip.length = (lineAddDensity mesh weight).length
        · rw [if_pos hl] at hs3
          injection hs3 with hs3
          subst hs3
          exact mem_filterNotMask hq
        · rw [if_neg hl] at hs3
          exact absurd hs3 (by simp)
      · rw [if_neg hany] at hs3
        injection hs3 with hs3
        subst hs3
        exact hq
    rw [lineAddDensity] at hq2
    obtain ⟨a, _, b, _, rfl⟩ := mem_zipWith hq2
    exact mul_nonneg hw (qabs_nonneg _)
  apply forall₂_le_add_right
  · rw [projectTrianglesToX_length, List.length_map, xrc, List.length_map,
      List.length_range, hlen]
  · exact projectTrianglesToX_nonneg _ _ _ hdens

/-- C7: a single `add` call with non-negative weight never decreases any stored
intensity sample, for the rectangular, polar and line detectors (stated entrywise via
`List.Forall₂ (· ≤ ·)`; the shape hypotheses say the intensity buffer matches the
sampling grid, which holds by construction). Monotonicity over any sequence of adds
follows by transitivity. -/
theorem add_monotone :
    (∀ (pit : Pt → Tri → Bool) (d : RectImageDetector) (mesh : AdaptiveMesh)
        (bSkip : List Bool) (weight : ℚ) (d2 : RectImageDetector), 0 ≤ weight →
        shape2OK d.points d.intensity →
        RectImageDetector.add pit d mesh bSkip weight = some d2 →
        List.Forall₂ (List.Forall₂ (· ≤ ·)) d.intensity d2.intensity) ∧
      (∀ (pit : Pt → Tri → Bool) (d : PolarImageDetector) (mesh : AdaptiveMesh)
        (bSkip : List Bool) (weight : ℚ) (d2 : PolarImageDetector), 0 ≤ weight →
        d.points.length = d.intensity.length →
        PolarImageDetector.add pit d mesh bSkip weight = some d2 →
        List.Forall₂ (· ≤ ·) d.intensity d2.intensity) ∧
      (∀ (d : LineImageDetector) (xmax : ℚ) (mesh : AdaptiveMesh)
        (bSkip : List Bool) (weight : ℚ) (d2 : LineImageDetector), 0 ≤ weight →
        d.intensity.length = d.pixels →
        LineImageDetector.add d xmax mesh bSkip weight = some d2 →
        List.Forall₂ (· ≤ ·) d.intensity d2.intensity) := by
  refine ⟨?_, ?_, ?_⟩
  · intro pit d mesh bSkip weight d2 hw hsh h
    unfold RectImageDetector.add at h
    obtain ⟨I2, hloop, h2⟩ := Option.map_eq_some.mp h
    have := rectAddLoop_mono pit d.points mesh.image (rectAddDensity mesh weight)
      bSkip (rectAddDensity_nonneg mesh weight hw) mesh.simplices 0 d.intensity I2
      hsh hloop
    rw [← h2]
    exact this
  · intro pit d mesh bSkip weight d2 hw hsh h
    unfold PolarImageDetector.add at h
    obtain ⟨I2, hloop, h2⟩ := Option.map_eq_some.mp h
    have := polarAddLoop_mono pit d.points mesh.image (polarAddDensity mesh weight)
      bSkip (rectAddDensity_nonneg mesh weight hw) mesh.simplices 0 d.intensity I2
      hsh hloop
    rw [← h2]
    exact this
  · exact lineAdd_mono

/-- The 1×1-pixel rectangular detector `mkRect (2,2) (1,1) (0,0)` after one `add` of
the unit triangle with weight 1 under `pitAll`. -/
def rectAddedOnce : RectImageDetector :=
  { extent := (2, 2), pixels := (1, 1), origin := (0, 0), points := [[(0, 0)]],
    intensity := [[1]] }

/-- A one-ring polar detector with a single sample point at the origin ring. -/
def polarDetOne : PolarImageDetector :=
  { rmax := 1, nrings := 1, points := [(1, 0)], points_per_ring := [1],
    weight_of_ring := [1], intensity := [0] }

/-- `polarDetOne` after one `add` of the unit triangle with weight 1 under `pitAll`. -/
def polarAddedOnce : PolarImageDetector :=
  { rmax := 1, nrings := 1, points := [(1, 0)], points_per_ring := [1],
    weight_of_ring := [1], intensity := [1] }

/-- The 1-pixel line detector `mkLine 1 (0,0) (1,0)` after one `add` of the unit
triangle with weight 1. -/
def lineAddedOnce : LineImageDetector :=
  { pixels := 1, start := (0, 0), endPt := (1, 0), points := [(0, 0)],
    intensity := [1] }

theorem rectAdd_concrete :
    RectImageDetector.add pitAll (mkRect (2, 2) (1, 1) (0, 0)) meshUnitTriangle []
      1 = some rectAddedOnce := by
  norm_num [RectImageDetector.add, rectAddLoop, rectAddStep, accumTriangle, getTri,
    rectAddDensity, mkRect, axisCenters, meshUnitTriangle, pitAll, qabs,
    rectAddedOnce, List.range_succ, List.get?]

theorem polarAdd_concrete :
    PolarImageDetector.add pitAll polarDetOne meshUnitTriangle [] 1 =
      some polarAddedOnce := by
  norm_num [PolarImageDetector.add, polarAddLoop, polarAddStep, accumTrianglePolar,
    getTri, polarAddDensity, polarDetOne, polarAddedOnce, meshUnitTriangle, pitAll,
    qabs, List.get?]

theorem lineAdd_concrete :
    LineImageDetector.add (mkLine 1 (0, 0) (1, 0)) 1 meshUnitTriangle [] 1 =
      some lineAddedOnce := by
  norm_num [LineImageDetector.add, filterNotMask, getTri, lineAddDensity, mkLine,
    xrc, rotToLine, projectTrianglesToX, triHeights, triHeightsSorted, sortByX,
    heightsNonneg_true, qabs, meshUnitTriangle, lineAddedOnce, List.range_succ,
    List.get?, List.mapM.loop, List.foldl_cons, List.foldl_nil, List.zip_cons_cons]

theorem zipWith_zero_add (z l : List ℚ) (hz : ∀ q ∈ z, q = 0)
    (h : z.length = l.length) : List.zipWith (· + ·) z l = l := by
  induction z generalizing l with
  | nil =>
    cases l
    · rfl
    · simp at h
  | cons q zt ih =>
    cases l with
    | nil => simp at h
    | cons x xt =>
      rw [List.zipWith_cons_cons, hz q (List.mem_cons_self _ _), zero_add]
      rw [ih xt (fun p hp => hz p (List.mem_cons_of_mem _ hp)) (by simpa using h)]

/-- C3: feeding the single unit right triangle (image vertices (0,0), (1,0), (0,1),
all areas 1, weight 1, hence density 1) to an x-axis line detector with `N` pixels
(start (0,0), end (1,0), segment length `xmax = 1`) accumulates the profile
`1 - x` at every sampled column `x = i/N`; all sampled columns lie in `[0, 1)`, so the
"zero outside `[0,1]`" part of the expected profile is not exercised by any sample. -/
theorem lineDetector_unitTriangle_profile (N : ℕ) :
    (LineImageDetector.add (mkLine N (0, 0) (1, 0)) 1 meshUnitTriangle [] 1).map
        LineImageDetector.intensity =
      some ((List.range N).map fun i : ℕ => 1 - (i : ℚ) / N) := by
  have hxs : ((xrc N).map (· * 1)) = xrc N := by
    simp [mul_one]
  have hheights : triHeights ((0, 0), (1, 0), (0, 1)) (xrc N) =
      (List.range N).map (fun i : ℕ => 1 - (i : ℚ) / N) := by
    have hsort : sortByX ((0, 0), (1, 0), (0, 1)) = ((0, 0), (0, 1), (1, 0)) := by
      norm_num [sortByX]
    unfold triHeights
    rw [hsort]
    unfold triHeightsSorted
    rw [xrc, List.map_map]
    apply List.map_congr_left
    intro i hi
    rw [List.mem_range] at hi
    have hN : 0 < N := lt_of_le_of_lt (Nat.zero_le i) hi
    have hx0 : 0 ≤ (i : ℚ) / N := by positivity
    have hx1 : (i : ℚ) / N ≤ 1 := by
      rw [div_le_one (by exact_mod_cast hN)]
      exact_mod_cast le_of_lt hi
    rw [Function.comp]
    dsimp only
    rw [if_neg (by intro hc; rcases hc with ⟨h1, h2⟩; linarith)]
    rw [if_pos ⟨hx0, hx1⟩]
    norm_num [qabs]
  have hproj : projectTrianglesToX [((0, 0), (1, 0), (0, 1))] [1]
      ((xrc N).map (· * 1)) =
      (List.range N).map (fun i : ℕ => 1 - (i : ℚ) / N) := by
    unfold projectTrianglesToX
    rw [List.zip_cons_cons, List.zip_nil_left, List.foldl_cons, List.foldl_nil]
    rw [zipWith_zero_add]
    · rw [hxs, hheights]
      simp [mul_one]
    · intro q hq
      rw [List.mem_map] at hq
      obtain ⟨_, _, rfl⟩ := hq
      rfl
    · simp [triHeights_length]
  have hadd : LineImageDetector.add (mkLine N (0, 0) (1, 0)) 1 meshUnitTriangle []
        1 =
      some { pixels := N, start := (0, 0), endPt := (1, 0),
             points := (mkLine N (0, 0) (1, 0)).points,
             intensity := List.zipWith (· + ·) ((mkLine N (0, 0) (1, 0)).intensity)
               (projectTrianglesToX [((0, 0), (1, 0), (0, 1))] [1]
                 ((xrc N).map (· * 1))) } := by
    unfold LineImageDetector.add
    norm_num [meshUnitTriangle, getTri, List.mapM.loop, List.get?, rotToLine,
      lineAddDensity, qabs, heightsNonneg_true, mkLine]
  rw [hadd, Option.map_some']
  rw [hproj]
  congr 1
  apply zipWith_zero_add
  · intro q hq
    have hq2 : q ∈ (xrc N).map (fun _ => (0 : ℚ)) := hq
    rw [List.mem_map] at hq2
    obtain ⟨_, _, rfl⟩ := hq2
    rfl
  · simp [mkLine, xrc]

theorem sum_map_sum_mul (I : List (List ℚ)) (c : ℚ) :
    (I.map (fun row => row.sum * c)).sum = (I.map List.sum).sum * c := by
  induction I with
  | nil => simp
  | cons r t ih =>
    rw [List.map_cons, List.sum_cons, List.map_cons, List.sum_cons, ih]
    ring

theorem sum_map_mul_const (l : List ℚ) (c : ℚ) :
    (l.map (· * c)).sum = l.sum * c := by
  induction l with
  | nil => simp
  | cons x t ih =>
    rw [List.map_cons, List.sum_cons, List.sum_cons, ih]
    ring

theorem sum_zipWith_add (a : List ℚ) :
    ∀ b : List ℚ, a.length = b.length →
      (List.zipWith (· + ·) a b).sum = a.sum + b.sum := by
  induction a with
  | nil =>
    intro b h
    cases b
    · simp
    · simp at h
  | cons x xt ih =>
    intro b h
    cases b with
    | nil => simp at h
    | cons y yt =>
      rw [List.zipWith_cons_cons, List.sum_cons, List.sum_cons, List.sum_cons,
        ih yt (by simpa using h)]
      ring

theorem foldl_zipWith_add_sum :
    ∀ (rows : List (List ℚ)) (acc : List ℚ), (∀ r ∈ rows, r.length = acc.length) →
      (rows.foldl (fun acc row => List.zipWith (· + ·) acc row) acc).sum =
        acc.sum + (rows.map List.sum).sum := by
  intro rows
  induction rows with
  | nil =>
    intro acc _
    simp
  | cons r rest ih =>
    intro acc h
    rw [List.foldl_cons, ih _ ?hrest, List.map_cons, List.sum_cons,
      sum_zipWith_add acc r (h r (List.mem_cons_self _ _)).symm]
    · ring
    case hrest =>
      intro p hp
      rw [List.length_zipWith, h r (List.mem_cons_self _ _), Nat.min_self]
      exact h p (List.mem_cons_of_mem _ hp)

theorem colSums_sum (n : ℕ) (rows : List (List ℚ))
    (h : ∀ r ∈ rows, r.length = n) :
    (colSums n rows).sum = (rows.map List.sum).sum := by
  unfold colSums
  rw [foldl_zipWith_add_sum rows (List.replicate n 0)
    (by intro r hr; rw [h r hr, List.length_replicate])]
  rw [List.sum_replicate, smul_zero, zero_add]

/-- A rectangular detector state: the construction-time grid of `mkRect` plus an
arbitrary accumulated intensity buffer (the state after any sequence of adds). -/
def rectWithIntensity (extent : ℚ × ℚ) (pixels : ℕ × ℕ) (origin : ℚ × ℚ)
    (I : List (List ℚ)) : RectImageDetector :=
  { mkRect extent pixels origin with intensity := I }

/-- `np.nansum(intensity)*dx*dy` — total power of the 2D footprint with no mask, as
computed in `RectImageDetector.show` (lines 137–141). -/
def rectTotalPower (d : RectImageDetector) : ℚ :=
  ((d.get_footprint none).map List.sum).sum *
    (d.xaxis.getD 1 0 - d.xaxis.getD 0 0) * (d.yaxis.getD 1 0 - d.yaxis.getD 0 0)

/-- `np.sum(xprofile)*dx` of `RectImageDetector.show` (line 140). -/
def rectXProjPower (d : RectImageDetector) : ℚ :=
  (d.x_projection none).2.sum * (d.xaxis.getD 1 0 - d.xaxis.getD 0 0)

/-- `np.sum(yprofile)*dy` of `RectImageDetector.show` (line 140). -/
def rectYProjPower (d : RectImageDetector) : ℚ :=
  (d.y_projection none).2.sum * (d.yaxis.getD 1 0 - d.yaxis.getD 0 0)

/-- C4: for every rectangular detector state (any `nx × ny` intensity buffer with
`nx, ny ≥ 2` on the construction grid) and no mask, the total footprint power equals
the total power of the x-projection and of the y-projection — exactly, in exact
rational arithmetic, hence in particular within floating-point tolerance. -/
theorem rect_power_consistency (extent origin : ℚ × ℚ) (nx ny : ℕ)
    (I : List (List ℚ)) (hnx : 2 ≤ nx) (hny : 2 ≤ ny) (hlen : I.length = nx)
    (hrow : ∀ r ∈ I, r.length = ny) :
    rectTotalPower (rectWithIntensity extent (nx, ny) origin I) =
        rectXProjPower (rectWithIntensity extent (nx, ny) origin I) ∧
      rectTotalPower (rectWithIntensity extent (nx, ny) origin I) =
        rectYProjPower (rectWithIntensity extent (nx, ny) origin I) := by
  constructor
  · unfold rectTotalPower rectXProjPower RectImageDetector.x_projection
      RectImageDetector.get_footprint
    simp only [rectWithIntensity, mkRect]
    rw [sum_map_sum_mul]
    ring
  · unfold rectTotalPower rectYProjPower RectImageDetector.y_projection
      RectImageDetector.get_footprint
    simp only [rectWithIntensity, mkRect]
    rw [sum_map_mul_const, colSums_sum _ _ hrow]

/-- C4 witness: the consistency equalities at a concrete 2×2 detector state with
intensity `[[1,2],[3,4]]`. -/
theorem rect_power_consistency_witness :
    rectTotalPower (rectWithIntensity (1, 1) (2, 2) (0, 0) [[1, 2], [3, 4]]) =
        rectXProjPower (rectWithIntensity (1, 1) (2, 2) (0, 0) [[1, 2], [3, 4]]) ∧
      rectTotalPower (rectWithIntensity (1, 1) (2, 2) (0, 0) [[1, 2], [3, 4]]) =
        rectYProjPower (rectWithIntensity (1, 1) (2, 2) (0, 0) [[1, 2], [3, 4]]) := by
  apply rect_power_consistency (1, 1) (0, 0) 2 2 [[1, 2], [3, 4]] (by norm_num)
    (by norm_num) (by norm_num)
  intro r hr
  rcases List.mem_cons.mp hr with rfl | hr2
  · norm_num
  · rcases List.mem_cons.mp hr2 with rfl | h3
    · norm_num
    · simp at h3

theorem mapM_option_mem {α β : Type} (f : α → Option β) :
    ∀ (l : List α) (out : List β), l.mapM f = some out →
      ∀ b ∈ out, ∃ a ∈ l, f a = some b := by
  intro l
  induction l with
  | nil =>
    intro out h b hb
    rw [List.mapM_nil] at h
    injection h with h
    subst h
    simp at hb
  | cons a t ih =>
    intro out h b hb
    rw [List.mapM_cons] at h
    obtain ⟨x, hx, h2⟩ := Option.bind_eq_some.mp h
    obtain ⟨xs, hxs, h3⟩ := Option.bind_eq_some.mp h2
    injection h3 with h3
    subst h3
    rcases List.mem_cons.mp hb with rfl | hb2
    · exact ⟨a, List.mem_cons_self _ _, hx⟩
    · obtain ⟨a2, ha2, hfa2⟩ := ih xs hxs b hb2
      exact ⟨a2, List.mem_cons_of_mem _ ha2, hfa2⟩

theorem cumsum_nonneg (l : List ℚ) (h : ∀ q ∈ l, 0 ≤ q) :
    ∀ q ∈ cumsum l, 0 ≤ q := by
  induction l with
  | nil => simp [cumsum]
  | cons a t ih =>
    intro q hq
    rw [cumsum] at hq
    rcases List.mem_cons.mp hq with rfl | hq2
    · exact h q (List.mem_cons_self _ _)
    · rw [List.mem_map] at hq2
      obtain ⟨y, hy, rfl⟩ := hq2
      have h1 := ih (fun p hp => h p (List.mem_cons_of_mem _ hp)) y hy
      have h2 := h a (List.mem_cons_self _ _)
      linarith

theorem cumsum_sorted (l : List ℚ) (h : ∀ q ∈ l, 0 ≤ q) :
    (cumsum l).Sorted (· ≤ ·) := by
  induction l with
  | nil => exact List.sorted_nil
  | cons a t ih =>
    rw [cumsum, List.sorted_cons]
    constructor
    · intro b hb
      rw [List.mem_map] at hb
      obtain ⟨y, hy, rfl⟩ := hb
      have := cumsum_nonneg t (fun p hp => h p (List.mem_cons_of_mem _ hp)) y hy
      linarith
    · rw [List.Sorted, List.pairwise_map]
      have hs := ih (fun p hp => h p (List.mem_cons_of_mem _ hp))
      exact hs.imp (fun hxy => by linarith)

/-- C9: for every polar detector state with non-negative stored intensities and
non-negative ring weights (and any non-negative stand-in for π), a successful
`radial_projection` returns an encircled-energy sequence equal to the cumulative sum
of `radial_profile[i] * ring_weight[i] * π * rmax²`, and that sequence is
non-decreasing in the ring index. -/
theorem radial_projection_encircled (piv : ℚ) (d : PolarImageDetector)
    (hpi : 0 ≤ piv) (hint : ∀ q ∈ d.intensity, 0 ≤ q)
    (hw : ∀ w ∈ d.weight_of_ring, 0 ≤ w) (r2 profile ee : List ℚ)
    (h : d.radial_projection piv = some (r2, profile, ee)) :
    ee = cumsum (List.zipWith (fun p w => p * w * piv * d.rmax ^ 2) profile
        d.weight_of_ring) ∧
      ee.Sorted (· ≤ ·) := by
  unfold PolarImageDetector.radial_projection at h
  obtain ⟨rings, hrings, h2⟩ := Option.bind_eq_some.mp h
  simp only [Option.pure_def, Option.some.injEq, Prod.mk.injEq] at h2
  obtain ⟨hr2, hprof, hee⟩ := h2
  have hprofnn : ∀ p ∈ rings.map Prod.snd, 0 ≤ p := by
    intro p hp
    rw [List.mem_map] at hp
    obtain ⟨ring, hring, rfl⟩ := hp
    obtain ⟨i, _, hfi⟩ := mapM_option_mem _ _ rings hrings ring hring
    obtain ⟨ppr, hppr, hbody⟩ := Option.bind_eq_some.mp hfi
    dsimp only at hbody
    rcases hpseg : (d.points.drop ((d.points_per_ring.take i).sum)).take ppr with
      _ | ⟨p0, rest⟩ <;> rw [hpseg] at hbody
    · exact absurd hbody (by simp)
    · dsimp only at hbody
      by_cases hall : (rest.all
          (fun q => decide (q.1 ^ 2 + q.2 ^ 2 = p0.1 ^ 2 + p0.2 ^ 2))) = true
      · rw [if_pos hall] at hbody
        injection hbody with hbody
        rw [← hbody]
        apply div_nonneg _ (Nat.cast_nonneg ppr)
        apply List.sum_nonneg
        intro x hx
        exact hint x (List.mem_of_mem_drop (List.mem_of_mem_take hx))
      · rw [if_neg hall] at hbody
        exact absurd hbody (by simp)
  have htermnn : ∀ q ∈ List.zipWith (fun p w => p * w * piv * d.rmax ^ 2)
      (rings.map Prod.snd) d.weight_of_ring, 0 ≤ q := by
    intro q hq
    obtain ⟨p, hp, w, hwm, rfl⟩ := mem_zipWith hq
    have h1 : 0 ≤ p * w := mul_nonneg (hprofnn p hp) (hw w hwm)
    have h2 : 0 ≤ p * w * piv := mul_nonneg h1 hpi
    exact mul_nonneg h2 (sq_nonneg _)
  subst hprof hee
  exact ⟨rfl, cumsum_sorted _ htermnn⟩

/-- One-ring polar detector with stored intensity 2 on its single sample point. -/
def polarDetTwo : PolarImageDetector :=
  { rmax := 1, nrings := 1, points := [(1, 0)], points_per_ring := [1],
    weight_of_ring := [1], intensity := [2] }

theorem polarDetTwo_radial :
    polarDetTwo.radial_projection 3 = some ([1], [2], [6]) := by
  norm_num [PolarImageDetector.radial_projection, polarDetTwo, List.range_succ,
    List.mapM.loop, List.get?, cumsum]

/-- C9 witness: the theorem at `polarDetTwo` with π stand-in 3 — encircled energy
`[6] = cumsum [2·1·3·1²]`, trivially non-decreasing. -/
theorem radial_projection_encircled_witness :
    [6] = cumsum (List.zipWith
        (fun p w => p * w * 3 * polarDetTwo.rmax ^ 2) [2]
        polarDetTwo.weight_of_ring) ∧
      List.Sorted (· ≤ ·) [(6 : ℚ)] := by
  have h := radial_projection_encircled 3 polarDetTwo (by norm_num)
    (by intro q hq; rw [polarDetTwo] at hq; simp at hq; subst hq; norm_num)
    (by intro w hw2; rw [polarDetTwo] at hw2; simp at hw2; subst hw2; norm_num)
    [1] [2] [6] polarDetTwo_radial
  exact h

/-- C7 witness: the monotonicity theorem applied to one concrete `add` per detector
(1×1 rectangular grid, one-ring polar grid, 1-pixel line, unit triangle, weight 1). -/
theorem add_monotone_witness :
    List.Forall₂ (List.Forall₂ (· ≤ ·)) (mkRect (2, 2) (1, 1) (0, 0)).intensity
        rectAddedOnce.intensity ∧
      List.Forall₂ (· ≤ ·) polarDetOne.intensity polarAddedOnce.intensity ∧
      List.Forall₂ (· ≤ ·) (mkLine 1 (0, 0) (1, 0)).intensity
        lineAddedOnce.intensity := by
  refine ⟨?_, ?_, ?_⟩
  · exact add_monotone.1 pitAll _ meshUnitTriangle [] 1 rectAddedOnce (by norm_num)
      (by norm_num [shape2OK, mkRect, axisCenters, List.range_succ,
        List.forall₂_cons]) rectAdd_concrete
  · exact add_monotone.2.1 pitAll _ meshUnitTriangle [] 1 polarAddedOnce
      (by norm_num) (by norm_num [polarDetOne]) polarAdd_concrete
  · exact add_monotone.2.2 _ 1 meshUnitTriangle [] 1 lineAddedOnce (by norm_num)
      (by norm_num [mkLine, xrc]) lineAdd_concrete

end Tados
